import Mathlib

/-!
Verification development for the hierarchical-reconciliation and
rolling-window-backtesting core of the pharma forecasting repository.

The embedding models the two source modules

  * ml/hierarchical/reconciliation.py  (HierarchicalReconciler)
  * ml/evaluation/backtesting.py       (rolling_window_backtest,
                                        calculate_forecast_metrics)

as pure functions over association lists.  Python dicts are modelled as
insertion-ordered association lists (`lookupA` is first-occurrence lookup,
`setKey` overwrites in place or appends, exactly like dict assignment).
Numeric values are rationals; numpy vectors are lists of rationals.
Fallible code paths (KeyError, IndexError, raised ValueError) are modelled
with Option / Except.  The while loop of `_build_levels` is modelled with
an explicit fuel parameter: `levelsFrom h fuel fr = some L` states that the
loop starting from frontier `fr` terminates within `fuel` iterations and
produces the level list `L`; `none` means the fuel was insufficient.
-/

namespace Pharma

abbrev Node := String

abbrev Vec := List ℚ

/-- Python dict with string keys, as an insertion-ordered association list. -/
abbrev FMap := List (Node × Vec)

abbrev Hierarchy := List (Node × List Node)

/-- First-occurrence lookup, the semantics of a Python dict read. -/
def lookupA {α : Type} : List (Node × α) → Node → Option α
  | [], _ => none
  | (k, v) :: rest, key => if k = key then some v else lookupA rest key

/-- Python dict assignment: overwrite the existing entry in place, or append. -/
def setKey {α : Type} : List (Node × α) → Node → α → List (Node × α)
  | [], key, v => [(key, v)]
  | (k, w) :: rest, key, v =>
      if k = key then (k, v) :: rest else (k, w) :: setKey rest key v

def keysOf {α : Type} (m : List (Node × α)) : List Node :=
  m.map Prod.fst

/-- Elementwise numpy addition of two equal-length vectors. -/
def addVec (a b : Vec) : Vec :=
  List.zipWith (· + ·) a b

/-- np.sum(vs, axis=0) over a list of equal-length vectors. -/
def sumVecs : List Vec → Vec
  | [] => []
  | v :: vs => vs.foldl addVec v

/-- Numpy vector times scalar. -/
def scaleVec (v : Vec) (c : ℚ) : Vec :=
  v.map (· * c)

/-! ## HierarchicalReconciler._build_levels -/

/-- All keys appearing as a child of some parent (`all_nodes` in the source). -/
def childNodes (h : Hierarchy) : List Node :=
  (h.map Prod.snd).flatten

/-- Root nodes: hierarchy keys that are not children of any parent.  The
source materialises a Python set; we keep the deterministic key order. -/
def rootNodes (h : Hierarchy) : List Node :=
  (h.map Prod.fst).filter (fun k => !(childNodes h).contains k)

/-- One iteration of the while loop: concatenated children lists of the
current-level nodes that have hierarchy entries. -/
def expand (h : Hierarchy) (level : List Node) : List Node :=
  (level.map (fun n => (lookupA h n).getD [])).flatten

/-- Frontier after n iterations of the while loop. -/
def expandIter (h : Hierarchy) : Nat → List Node → List Node
  | 0, fr => fr
  | n + 1, fr => expandIter h n (expand h fr)

/-- The while loop of _build_levels with explicit fuel.  `some L` means the
loop terminated within the fuel and produced level list `L`; `none` means
the frontier was still nonempty when the fuel ran out (the Python loop
would still be running). -/
def levelsFrom (h : Hierarchy) : Nat → List Node → Option (List (List Node))
  | 0, fr => if fr.isEmpty then some [] else none
  | fuel + 1, fr =>
      if fr.isEmpty then some []
      else (levelsFrom h fuel (expand h fr)).map (fr :: ·)

/-! ## HierarchicalReconciler.bottom_up_reconcile -/

/-- Body of the inner loop of bottom_up_reconcile for one parent node:
if the parent has a hierarchy entry and at least one child carries a
forecast, overwrite the parent with the elementwise sum of the present
children. -/
def processParent (h : Hierarchy) (m : FMap) (parent : Node) : FMap :=
  match lookupA h parent with
  | none => m
  | some children =>
      let cf := children.filterMap (fun c => lookupA m c)
      if cf.isEmpty then m else setKey m parent (sumVecs cf)

def processLevel (h : Hierarchy) (m : FMap) (lvl : List Node) : FMap :=
  lvl.foldl (processParent h) m

/-- bottom_up_reconcile: copy the forecasts, then walk the levels from the
deepest to the shallowest, summing present children into each parent. -/
def bottom_up_reconcile (h : Hierarchy) (levels : List (List Node)) (f : FMap) : FMap :=
  (levels.reverse).foldl (processLevel h) f

/-- Recursive restatement of the reversed fold, used by the proofs. -/
def runLevels (h : Hierarchy) : List (List Node) → FMap → FMap
  | [], f => f
  | lvl :: rest, f => processLevel h (runLevels h rest f) lvl

/-! ## HierarchicalReconciler.top_down_reconcile -/

/-- np.mean(rows, axis=0): elementwise mean across the stacked rows (the
rows share one length; numpy raises on ragged stacks).  The source stacks
the children proportion series, so for the average method this is a
history-length vector of cross-child means. -/
def npMeanRows : List Vec → Vec
  | [] => []
  | r :: rs => (sumVecs (r :: rs)).map (· / ((r :: rs).length : ℚ))

/-- The list comprehension building one value per child, aborting on the
first failing element (a Python exception). -/
def mapOption {α β : Type} (g : α → Option β) : List α → Option (List β)
  | [] => some []
  | a :: as =>
      match g a with
      | none => none
      | some b => (mapOption g as).map (b :: ·)

/-- Proportion vector computed by top_down_reconcile before normalisation.
The average and seasonal branches are np.mean(..., axis=0); the last branch
takes the final entry of each child series.  A missing proportions entry is
a Python KeyError, an empty series makes the last branch an IndexError;
both are modelled as none. -/
def childProps (props : FMap) (method : String) (children : List Node) : Option Vec :=
  if method = "last" then
    mapOption (fun c => (lookupA props c).bind (fun l => l.getLast?)) children
  else
    (mapOption (fun c => lookupA props c) children).map npMeanRows

/-- The child-assignment loop: reconciled[child] = parent_forecast *
proportions_avg[i].  Indexing past the end of the proportion vector is a
Python IndexError, modelled as none. -/
def assignChildren (pf pa : Vec) : List Node → Nat → FMap → Option FMap
  | [], _, m => some m
  | c :: cs, i, m =>
      match pa[i]? with
      | none => none
      | some w => assignChildren pf pa cs (i + 1) (setKey m c (scaleVec pf w))

/-- Body of the top-down loop for one node: only parents that are both in
the forecast dict and in the hierarchy distribute their forecast. -/
def topDownParent (h : Hierarchy) (forecasts props : FMap) (method : String)
    (m : FMap) (parent : Node) : Option FMap :=
  match lookupA forecasts parent, lookupA h parent with
  | some pf, some children =>
      match childProps props method children with
      | none => none
      | some pa0 => assignChildren pf (pa0.map (· / pa0.sum)) children 0 m
  | _, _ => some m

/-- top_down_reconcile: walk the levels from the root down, building the
result dict from empty; only children of qualifying parents are written. -/
def top_down_reconcile (h : Hierarchy) (levels : List (List Node))
    (forecasts props : FMap) (method : String) : Option FMap :=
  levels.foldlM (fun m lvl => lvl.foldlM (topDownParent h forecasts props method) m) []

/-! ## HierarchicalReconciler.mint_reconcile -/

/-- np.var: population variance, mean of squared deviations from the mean. -/
def npVar (e : Vec) : ℚ :=
  ((e.map (fun x => (x - e.sum / (e.length : ℚ)) ^ 2)).sum) / (e.length : ℚ)

/-- The stabilising epsilon 1e-8 from the source. -/
def mintEps : ℚ :=
  1 / 100000000

/-- Raw weight of one node: 1 / (variance + 1e-8) for a nonempty error
series, 1.0 for an empty one. -/
def rawWeight (e : Vec) : ℚ :=
  if 0 < e.length then 1 / (npVar e + mintEps) else 1

def mintWeights (errors : List (Node × Vec)) : List (Node × ℚ) :=
  errors.map (fun ne => (ne.1, rawWeight ne.2))

def mintTotal (errors : List (Node × Vec)) : ℚ :=
  ((mintWeights errors).map Prod.snd).sum

/-- The in-place normalisation loop dividing every weight by the total. -/
def mintNormWeights (errors : List (Node × Vec)) : List (Node × ℚ) :=
  (mintWeights errors).map (fun nw => (nw.1, nw.2 / mintTotal errors))

/-- mint_reconcile: every forecast node that has a (normalised) weight is
scaled by it; nodes without an error series pass through unchanged. -/
def mint_reconcile (forecasts : FMap) (errors : List (Node × Vec)) : FMap :=
  forecasts.map (fun nv =>
    match lookupA (mintNormWeights errors) nv.1 with
    | some w => (nv.1, scaleVec nv.2 w)
    | none => nv)

/-! ## calculate_forecast_metrics -/

/-- Result value of a numpy float expression: a finite rational, nan, or
positive infinity. -/
inductive PyVal where
  | val (q : ℚ)
  | nan
  | inf
deriving DecidableEq, Repr

/-- The six metric fields.  The source stores rmse = sqrt(mean(err^2));
sqrt is irrational, so the embedding carries the radicand rmseSq =
mean(err^2) instead (sqrt is strictly monotone on nonnegatives, so
definedness and comparisons transfer). -/
structure Metrics where
  mae : PyVal
  rmseSq : PyVal
  mape : PyVal
  wape : PyVal
  bias : PyVal
  mase : PyVal
deriving DecidableEq, Repr

/-- np.mean: nan on the empty array (numpy emits a warning, not an error). -/
def npMean (l : List ℚ) : PyVal :=
  if l.isEmpty then .nan else .val (l.sum / (l.length : ℚ))

/-- The boolean mask actual != 0. -/
def boolMask (a : List ℚ) : List Bool :=
  a.map (fun x => decide (x ≠ 0))

/-- Numpy boolean-mask indexing xs[mask] for a mask of matching length. -/
def applyMask (mask : List Bool) (xs : List ℚ) : List ℚ :=
  ((mask.zip xs).filter (fun bp => bp.1)).map (fun bp => bp.2)

/-- calculate_forecast_metrics.  The function performs no explicit length
validation; for unequal lengths the boolean-mask indexing
predicted[actual != 0] raises a numpy IndexError, modelled as none.  For
equal lengths every branch is total: degenerate inputs produce nan or inf
sentinels, never an error. -/
def calculate_forecast_metrics (actual predicted : List ℚ) : Option Metrics :=
  if actual.length = predicted.length then
    let mask := boolMask actual
    let actualNZ := applyMask mask actual
    let predictedNZ := applyMask mask predicted
    let errs := List.zipWith (fun a p => |a - p|) actual predicted
    some
      { mae := npMean errs
        rmseSq := npMean (List.zipWith (fun a p => (a - p) ^ 2) actual predicted)
        mape :=
          if actualNZ.isEmpty then .inf
          else .val (100 * ((List.zipWith (fun a p => |(a - p) / a|) actualNZ predictedNZ).sum
            / (actualNZ.length : ℚ)))
        wape :=
          if actual.sum = 0 then .inf
          else .val (100 * errs.sum / actual.sum)
        bias := npMean (List.zipWith (fun a p => p - a) actual predicted)
        mase :=
          if actual.length ≤ 1 then .inf
          else
            let naive := (List.zipWith (fun x y => |x - y|) actual.tail actual).sum
              / ((actual.length - 1 : Nat) : ℚ)
            if naive = 0 then .inf
            else .val ((errs.sum / (actual.length : ℚ)) / naive) }
  else none

/-! ## rolling_window_backtest -/

/-- Training window of step i: series[max(0, train_end - window_size) :
train_end].  Nat subtraction is exactly the max(0, ...) of the source. -/
def btWindow (series : List ℚ) (testPeriods windowSize i : Nat) : Vec :=
  let trainEnd := series.length - testPeriods + i
  let trainStart := trainEnd - windowSize
  (series.drop trainStart).take (trainEnd - trainStart)

/-- The rolling loop: at step i read the actual value series[train_end] and
one prediction from the caller-supplied forecast function applied to the
training window.  A failing forecast call aborts the whole loop with the
propagated error and no partial results. -/
def btLoop (series : List ℚ) (f : Vec → Except String ℚ)
    (testPeriods windowSize : Nat) : List Nat → Except String (List (ℚ × ℚ))
  | [] => .ok []
  | i :: is =>
      match f (btWindow series testPeriods windowSize i) with
      | .error e => .error e
      | .ok pred =>
          match btLoop series f testPeriods windowSize is with
          | .error e => .error e
          | .ok rest => .ok ((series.getD (series.length - testPeriods + i) 0, pred) :: rest)

/-- The step indices range(0, test_periods, step_size). -/
def btIndices (testPeriods stepSize : Nat) : List Nat :=
  (List.range testPeriods).filter (fun i => i % stepSize = 0)

/-- rolling_window_backtest, returning the (actual, predicted) rows.  The
guard raises ValueError("Series too short for backtesting") when the
series cannot cover one window plus the test periods. -/
def rolling_window_backtest (series : List ℚ) (f : Vec → Except String ℚ)
    (testPeriods windowSize stepSize : Nat) : Except String (List (ℚ × ℚ)) :=
  if series.length < windowSize + testPeriods then
    .error "Series too short for backtesting"
  else
    btLoop series f testPeriods windowSize (btIndices testPeriods stepSize)

/-! ## Shared horizon hypothesis and concrete inputs -/

/-- All forecast vectors of the map have the shared horizon length H
(the contract of one reconciliation call). -/
def uniformLen (H : Nat) (m : FMap) : Prop :=
  ∀ e ∈ m, e.2.length = H

instance (H : Nat) (m : FMap) : Decidable (uniformLen H m) :=
  List.decidableBAll _ m

/-- Lookup-based version of the shared-horizon contract. -/
def lookupLen (H : Nat) (m : FMap) : Prop :=
  ∀ k v, lookupA m k = some v → v.length = H

/-- The end-to-end scenario hierarchy of the specification. -/
def exHierarchy : Hierarchy :=
  [("Total", ["A", "B"])]

def exLevels : List (List Node) :=
  [["Total"], ["A", "B"]]

def exForecasts : FMap :=
  [("A", [10, 20]), ("B", [5, 15])]

def exSeries : List ℚ :=
  [10, 11, 12, 13, 14, 15, 16]

/-- A parent forecast to disaggregate top-down. -/
def exParentF : FMap :=
  [("Total", [100])]

/-- Proportion histories of length 3 for the two children: the history
length differs from the number of children, which exposes the axis mixup
of the average branch. -/
def exProps3 : FMap :=
  [("A", [1, 1, 1]), ("B", [3, 1, 1])]

/-- Proportion histories of length 2 (equal to the number of children). -/
def exProps2 : FMap :=
  [("A", [1, 3]), ("B", [3, 1])]

/-- Historical error series for the mint witness. -/
def exErrors : List (Node × Vec) :=
  [("A", [1, 2]), ("B", [1, 1])]

/-- A malformed hierarchy whose level expansion loops forever: the root R
points to A and A points to itself, so the frontier stays at A. -/
def cyclicHierarchy : Hierarchy :=
  [("R", ["A"]), ("A", ["A"])]

/-- A step-indexed forecast stub that fails only on the second training
window of the backtest witness run. -/
def failSecond : Vec → Except String ℚ :=
  fun w => if w = [13, 14, 15] then .error "boom" else .ok 0

/-! ## Association list lemmas -/

theorem lookupA_setKey_self {α : Type} (m : List (Node × α)) (k : Node) (v : α) :
    lookupA (setKey m k v) k = some v := by
  induction m with
  | nil => simp [setKey, lookupA]
  | cons e rest ih =>
      obtain ⟨k', w⟩ := e
      by_cases h : k' = k
      · simp [setKey, h, lookupA]
      · simp [setKey, h, lookupA, ih]

theorem lookupA_setKey_ne {α : Type} (m : List (Node × α)) (k q : Node) (v : α)
    (h : q ≠ k) : lookupA (setKey m k v) q = lookupA m q := by
  have hkq : ¬ k = q := fun hh => h hh.symm
  induction m with
  | nil => simp [setKey, lookupA, hkq]
  | cons e rest ih =>
      obtain ⟨k', w⟩ := e
      by_cases hk : k' = k
      · subst hk
        simp [setKey, lookupA, hkq]
      · simp [setKey, hk, lookupA, ih]

theorem setKey_eq_self {α : Type} (m : List (Node × α)) (k : Node) (v : α)
    (h : lookupA m k = some v) : setKey m k v = m := by
  induction m with
  | nil => simp [lookupA] at h
  | cons e rest ih =>
      obtain ⟨k', w⟩ := e
      by_cases hk : k' = k
      · subst hk
        simp [lookupA] at h
        simp [setKey, h]
      · simp [lookupA, hk] at h
        simp [setKey, hk, ih h]

theorem lookupA_mem {α : Type} {m : List (Node × α)} {k : Node} {v : α}
    (h : lookupA m k = some v) : (k, v) ∈ m := by
  induction m with
  | nil => simp [lookupA] at h
  | cons e rest ih =>
      obtain ⟨k', w⟩ := e
      by_cases hk : k' = k
      · subst hk
        simp [lookupA] at h
        simp [h]
      · simp [lookupA, hk] at h
        simp [ih h]

theorem lookupA_isSome_setKey {α : Type} (m : List (Node × α)) (k q : Node) (v : α)
    (h : (lookupA (setKey m k v) q).isSome = true) :
    q = k ∨ (lookupA m q).isSome = true := by
  by_cases hq : q = k
  · exact Or.inl hq
  · right
    rwa [lookupA_setKey_ne m k q v hq] at h

theorem lookupA_keyed_map {α β : Type} (g : α → β) (m : List (Node × α)) (k : Node) :
    lookupA (m.map (fun nv => (nv.1, g nv.2))) k = (lookupA m k).map g := by
  induction m with
  | nil => rfl
  | cons e rest ih =>
      obtain ⟨k', v⟩ := e
      by_cases h : k' = k
      · simp [lookupA, h]
      · simp [lookupA, h, ih]

theorem lookupA_keyed_map2 {α β : Type} (g : Node → α → β) (m : List (Node × α)) (k : Node) :
    lookupA (m.map (fun nv => (nv.1, g nv.1 nv.2))) k = (lookupA m k).map (g k) := by
  induction m with
  | nil => rfl
  | cons e rest ih =>
      obtain ⟨k', v⟩ := e
      by_cases h : k' = k
      · subst h
        simp [lookupA]
      · simp [lookupA, h, ih]

/-! ## Vector lemmas -/

theorem addVec_length (a b : Vec) : (addVec a b).length = min a.length b.length := by
  simp [addVec]

theorem addVec_getD : ∀ (a b : Vec) (t : Nat), t < a.length → t < b.length →
    (addVec a b).getD t 0 = a.getD t 0 + b.getD t 0
  | [], _, t, h, _ => absurd h (by simp)
  | _ :: _, [], t, _, h => absurd h (by simp)
  | _ :: _, _ :: _, 0, _, _ => rfl
  | x :: xs, y :: ys, t + 1, ht, ht' => by
      simpa [addVec] using
        addVec_getD xs ys t (by simpa using ht) (by simpa using ht')

theorem foldl_addVec_length (rest : List Vec) (acc : Vec) (H : Nat)
    (hacc : acc.length = H) (hlen : ∀ v ∈ rest, v.length = H) :
    (rest.foldl addVec acc).length = H := by
  induction rest generalizing acc with
  | nil => simpa using hacc
  | cons w ws ih =>
      have hw : w.length = H := hlen w (by simp)
      have : (addVec acc w).length = H := by
        simp [addVec_length, hacc, hw]
      exact ih (addVec acc w) this (fun v hv => hlen v (by simp [hv]))

theorem sumVecs_length (vs : List Vec) (H : Nat) (hne : vs ≠ [])
    (hlen : ∀ v ∈ vs, v.length = H) : (sumVecs vs).length = H := by
  cases vs with
  | nil => exact absurd rfl hne
  | cons v rest =>
      exact foldl_addVec_length rest v H (hlen v (by simp))
        (fun w hw => hlen w (by simp [hw]))

theorem foldl_addVec_getD (rest : List Vec) (acc : Vec) (H t : Nat)
    (hacc : acc.length = H) (hlen : ∀ v ∈ rest, v.length = H) (ht : t < H) :
    (rest.foldl addVec acc).getD t 0 = acc.getD t 0 + (rest.map (fun v => v.getD t 0)).sum := by
  induction rest generalizing acc with
  | nil => simp
  | cons w ws ih =>
      have hw : w.length = H := hlen w (by simp)
      have hlen' : (addVec acc w).length = H := by
        simp [addVec_length, hacc, hw]
      have := ih (addVec acc w) hlen' (fun v hv => hlen v (by simp [hv]))
      simp only [List.foldl_cons, this, List.map_cons, List.sum_cons]
      rw [addVec_getD acc w t (by omega) (by omega)]
      ring

theorem sumVecs_getD (vs : List Vec) (H t : Nat) (hne : vs ≠ [])
    (hlen : ∀ v ∈ vs, v.length = H) (ht : t < H) :
    (sumVecs vs).getD t 0 = (vs.map (fun v => v.getD t 0)).sum := by
  cases vs with
  | nil => exact absurd rfl hne
  | cons v rest =>
      have := foldl_addVec_getD rest v H t (hlen v (by simp))
        (fun w hw => hlen w (by simp [hw])) ht
      simpa [sumVecs] using this

/-! ## Divergence of _build_levels on the cyclic input -/

theorem expand_cyclic_R : expand cyclicHierarchy ["R"] = ["A"] := by
  decide

theorem expand_cyclic_A : expand cyclicHierarchy ["A"] = ["A"] := by
  decide

theorem levelsFrom_cyclic_A (fuel : Nat) :
    levelsFrom cyclicHierarchy fuel ["A"] = none := by
  induction fuel with
  | zero => rfl
  | succ n ih =>
      simp only [levelsFrom, List.isEmpty_cons, expand_cyclic_A, ih, Option.map_none']
      rfl

theorem expandIter_cyclic_A (n : Nat) :
    expandIter cyclicHierarchy n ["A"] = ["A"] := by
  induction n with
  | zero => rfl
  | succ k ih =>
      simp only [expandIter, expand_cyclic_A, ih]

/-! ## Structure of the level list produced by _build_levels -/

theorem uniformLen_lookupLen {H : Nat} {m : FMap} (hu : uniformLen H m) :
    lookupLen H m :=
  fun k v hkv => hu (k, v) (lookupA_mem hkv)

theorem levelsFrom_some_nil {h : Hierarchy} {fuel : Nat} {fr : List Node}
    (hL : levelsFrom h fuel fr = some []) : fr = [] := by
  cases fuel with
  | zero =>
      by_cases hfr : fr.isEmpty
      · exact List.isEmpty_iff.mp hfr
      · simp [levelsFrom, hfr] at hL
  | succ n =>
      by_cases hfr : fr.isEmpty
      · exact List.isEmpty_iff.mp hfr
      · simp [levelsFrom, hfr] at hL

theorem levelsFrom_cons_inv {h : Hierarchy} {fuel : Nat} {fr lvl : List Node}
    {rest : List (List Node)} (hL : levelsFrom h fuel fr = some (lvl :: rest)) :
    lvl = fr ∧ ∃ n, fuel = n + 1 ∧ levelsFrom h n (expand h fr) = some rest := by
  cases fuel with
  | zero =>
      by_cases hfr : fr.isEmpty <;> simp [levelsFrom, hfr] at hL
  | succ n =>
      by_cases hfr : fr.isEmpty
      · simp [levelsFrom, hfr] at hL
      · simp only [levelsFrom, hfr, if_neg, Bool.false_eq_true, not_false_eq_true,
          Option.map_eq_some'] at hL
        obtain ⟨rest', hrest, heq⟩ := hL
        obtain ⟨h1, h2⟩ := List.cons.injEq _ _ _ _ ▸ heq
        exact ⟨h1.symm, n, rfl, h2 ▸ hrest⟩

theorem mem_expand {h : Hierarchy} {fr : List Node} {p : Node} {cs : List Node}
    (hp : p ∈ fr) (hcs : lookupA h p = some cs) : ∀ c ∈ cs, c ∈ expand h fr := by
  intro c hc
  simp only [expand, List.mem_flatten, List.mem_map]
  exact ⟨cs, ⟨p, hp, by simp [hcs]⟩, hc⟩

theorem children_in_tail {h : Hierarchy} {fuel : Nat} {fr lvl : List Node}
    {rest : List (List Node)} (hL : levelsFrom h fuel fr = some (lvl :: rest)) :
    ∀ p ∈ lvl, ∀ cs, lookupA h p = some cs → ∀ c ∈ cs, c ∈ rest.flatten := by
  obtain ⟨hlvl, n, hfuel, hrest⟩ := levelsFrom_cons_inv hL
  intro p hp cs hcs c hc
  rw [hlvl] at hp
  have hce : c ∈ expand h fr := mem_expand hp hcs c hc
  cases rest with
  | nil =>
      have hfe := levelsFrom_some_nil hrest
      rw [hfe] at hce
      simp at hce
  | cons r rs =>
      obtain ⟨hre, _⟩ := levelsFrom_cons_inv hrest
      subst hre
      simp only [List.flatten_cons, List.mem_append]
      exact Or.inl hce

theorem children_sub_flatten {h : Hierarchy} :
    ∀ {L : List (List Node)} {fuel : Nat} {fr : List Node},
      levelsFrom h fuel fr = some L →
      ∀ p ∈ L.flatten, ∀ cs, lookupA h p = some cs → ∀ c ∈ cs, c ∈ L.flatten := by
  intro L
  induction L with
  | nil => intro fuel fr _ p hp; simp at hp
  | cons lvl rest ih =>
      intro fuel fr hL p hp cs hcs c hc
      obtain ⟨hlvl, n, hfuel, hrest⟩ := levelsFrom_cons_inv hL
      simp only [List.flatten_cons, List.mem_append] at hp ⊢
      rcases hp with hp | hp
      · exact Or.inr (children_in_tail hL p hp cs hcs c hc)
      · exact Or.inr (ih hrest p hp cs hcs c hc)

/-! ## Behaviour of one level pass of bottom_up_reconcile -/

theorem processParent_lookupA_ne (h : Hierarchy) (m : FMap) (p q : Node) (hq : q ≠ p) :
    lookupA (processParent h m p) q = lookupA m q := by
  unfold processParent
  cases hcs : lookupA h p with
  | none => rfl
  | some cs =>
      by_cases hcf : (cs.filterMap (fun c => lookupA m c)).isEmpty
      · simp [hcf]
      · simp [hcf, lookupA_setKey_ne m p q _ hq]

theorem processParent_self_none (h : Hierarchy) (m : FMap) (p : Node)
    (hcs : lookupA h p = none) : processParent h m p = m := by
  unfold processParent
  split
  · rfl
  · next cs heq => rw [hcs] at heq; simp at heq

theorem processParent_self_some (h : Hierarchy) (m : FMap) (p : Node) (cs : List Node)
    (hcs : lookupA h p = some cs) :
    lookupA (processParent h m p) p =
      if (cs.filterMap (fun c => lookupA m c)).isEmpty then lookupA m p
      else some (sumVecs (cs.filterMap (fun c => lookupA m c))) := by
  unfold processParent
  split
  · next heq => rw [hcs] at heq; simp at heq
  · next cs' heq =>
      rw [hcs] at heq
      obtain rfl : cs = cs' := by simpa using heq
      by_cases hcf : (cs.filterMap (fun c => lookupA m c)).isEmpty
      · simp [hcf]
      · simp [hcf, lookupA_setKey_self]

theorem processLevel_not_mem (h : Hierarchy) (lvl : List Node) (k : Node) :
    ∀ m : FMap, k ∉ lvl → lookupA (processLevel h m lvl) k = lookupA m k := by
  induction lvl with
  | nil => intro m _; rfl
  | cons p ps ih =>
      intro m hk
      have h1 : k ≠ p := fun hh => hk (by simp [hh])
      have h2 : k ∉ ps := fun hh => hk (by simp [hh])
      show lookupA (processLevel h (processParent h m p) ps) k = lookupA m k
      rw [ih _ h2, processParent_lookupA_ne h m p k h1]

theorem processLevel_spec_none (h : Hierarchy) (lvl : List Node) :
    ∀ m : FMap, ∀ p, lookupA h p = none →
      lookupA (processLevel h m lvl) p = lookupA m p := by
  induction lvl with
  | nil => intro m p _; rfl
  | cons q qs ih =>
      intro m p hp
      show lookupA (processLevel h (processParent h m q) qs) p = lookupA m p
      rw [ih _ p hp]
      by_cases hq : p = q
      · subst hq
        rw [processParent_self_none h m p hp]
      · exact processParent_lookupA_ne h m q p hq

/-- One level pass over a map whose keys outside the level (the stable set
S) hold the children of every level node, where the S-members of the level
already satisfy the parent-sum invariant: the pass leaves S unchanged,
leaves keys outside the level unchanged, and writes into every level node
with a hierarchy entry the if-present sum of its children as read from the
entry map.  No duplicate-freedom is needed: re-assignments recompute the
same value. -/
theorem processLevel_stable (h : Hierarchy) (S : List Node) (lvl : List Node) :
    ∀ m : FMap,
      (∀ p ∈ lvl, ∀ cs, lookupA h p = some cs → ∀ c ∈ cs, c ∈ S) →
      (∀ p ∈ lvl, p ∈ S → ∀ cs, lookupA h p = some cs →
        cs.filterMap (fun c => lookupA m c) ≠ [] →
        lookupA m p = some (sumVecs (cs.filterMap (fun c => lookupA m c)))) →
      (∀ k ∈ S, lookupA (processLevel h m lvl) k = lookupA m k) ∧
      (∀ k, k ∉ lvl → lookupA (processLevel h m lvl) k = lookupA m k) ∧
      (∀ p ∈ lvl, ∀ cs, lookupA h p = some cs →
        lookupA (processLevel h m lvl) p =
          if (cs.filterMap (fun c => lookupA m c)).isEmpty then lookupA m p
          else some (sumVecs (cs.filterMap (fun c => lookupA m c)))) := by
  induction lvl with
  | nil =>
      intro m _ _
      exact ⟨fun k _ => rfl, fun k _ => rfl, fun p hp => absurd hp (by simp)⟩
  | cons q qs ih =>
      intro m hch hfix
      have hch' : ∀ p ∈ qs, ∀ cs, lookupA h p = some cs → ∀ c ∈ cs, c ∈ S :=
        fun p hp => hch p (List.mem_cons_of_mem q hp)
      have hfix' : ∀ p ∈ qs, p ∈ S → ∀ cs, lookupA h p = some cs →
          cs.filterMap (fun c => lookupA m c) ≠ [] →
          lookupA m p = some (sumVecs (cs.filterMap (fun c => lookupA m c))) :=
        fun p hp => hfix p (List.mem_cons_of_mem q hp)
      -- shared path for the cases in which processing q does not change m
      have noop : processParent h m q = m →
          (∀ cs, lookupA h q = some cs →
            lookupA m q =
              if (cs.filterMap (fun c => lookupA m c)).isEmpty then lookupA m q
              else some (sumVecs (cs.filterMap (fun c => lookupA m c)))) →
          (∀ k ∈ S, lookupA (processLevel h m (q :: qs)) k = lookupA m k) ∧
          (∀ k, k ∉ q :: qs → lookupA (processLevel h m (q :: qs)) k = lookupA m k) ∧
          (∀ p ∈ q :: qs, ∀ cs, lookupA h p = some cs →
            lookupA (processLevel h m (q :: qs)) p =
              if (cs.filterMap (fun c => lookupA m c)).isEmpty then lookupA m p
              else some (sumVecs (cs.filterMap (fun c => lookupA m c)))) := by
        intro hm1 hq3
        obtain ⟨S1, S2, S3⟩ := ih m hch' hfix'
        have hshow : processLevel h m (q :: qs) = processLevel h m qs := by
          show processLevel h (processParent h m q) qs = _
          rw [hm1]
        refine ⟨fun k hk => by rw [hshow]; exact S1 k hk,
          fun k hk => by
            rw [hshow]; exact S2 k (fun hh => hk (List.mem_cons_of_mem q hh)), ?_⟩
        intro p hp cs hcs
        rw [hshow]
        rcases List.mem_cons.mp hp with rfl | hpqs
        · by_cases hqqs : p ∈ qs
          · exact S3 p hqqs cs hcs
          · rw [S2 p hqqs]
            exact hq3 cs hcs
        · exact S3 p hpqs cs hcs
      cases hq : lookupA h q with
      | none =>
          refine noop (processParent_self_none h m q hq) ?_
          intro cs hcs
          rw [hq] at hcs
          exact Option.noConfusion hcs
      | some cs0 =>
          by_cases hcf : (cs0.filterMap (fun c => lookupA m c)).isEmpty
          · refine noop ?_ ?_
            · unfold processParent
              split
              · next heq => exact absurd heq (by simp [hq])
              · next cs' heq =>
                  rw [hq] at heq
                  obtain rfl : cs0 = cs' := by simpa using heq
                  simp [hcf]
            · intro cs hcs
              obtain rfl : cs0 = cs := by
                rw [hq] at hcs; simpa using hcs
              rw [if_pos hcf]
          · have hne0 : cs0.filterMap (fun c => lookupA m c) ≠ [] := by
              simpa [List.isEmpty_iff] using hcf
            by_cases hqS : q ∈ S
            · have hval := hfix q (by simp) hqS cs0 hq hne0
              refine noop ?_ ?_
              · unfold processParent
                split
                · next heq => exact absurd heq (by simp [hq])
                · next cs' heq =>
                    rw [hq] at heq
                    obtain rfl : cs0 = cs' := by simpa using heq
                    simp [hcf, setKey_eq_self m q _ hval]
              · intro cs hcs
                obtain rfl : cs0 = cs := by
                  rw [hq] at hcs; simpa using hcs
                rw [if_neg hcf]
                exact hval
            · -- fresh assignment to q
              have hm1 : processParent h m q
                  = setKey m q (sumVecs (cs0.filterMap (fun c => lookupA m c))) := by
                unfold processParent
                split
                · next heq => exact absurd heq (by simp [hq])
                · next cs' heq =>
                    rw [hq] at heq
                    obtain rfl : cs0 = cs' := by simpa using heq
                    simp [hcf]
              set v0 := sumVecs (cs0.filterMap (fun c => lookupA m c)) with hv0
              set m1 := setKey m q v0 with hm1def
              have hS1 : ∀ k ∈ S, lookupA m1 k = lookupA m k := by
                intro k hk
                have hkq : k ≠ q := fun hh => hqS (hh ▸ hk)
                exact lookupA_setKey_ne m q k v0 hkq
              have hfmS : ∀ p ∈ qs, ∀ cs, lookupA h p = some cs →
                  cs.filterMap (fun c => lookupA m1 c)
                    = cs.filterMap (fun c => lookupA m c) := by
                intro p hp cs hcs
                exact List.filterMap_congr
                  (fun c hc => hS1 c (hch p (List.mem_cons_of_mem q hp) cs hcs c hc))
              have hfix1 : ∀ p ∈ qs, p ∈ S → ∀ cs, lookupA h p = some cs →
                  cs.filterMap (fun c => lookupA m1 c) ≠ [] →
                  lookupA m1 p = some (sumVecs (cs.filterMap (fun c => lookupA m1 c))) := by
                intro p hp hpS cs hcs hne'
                rw [hfmS p hp cs hcs] at hne' ⊢
                rw [hS1 p hpS]
                exact hfix p (List.mem_cons_of_mem q hp) hpS cs hcs hne'
              obtain ⟨S1, S2, S3⟩ := ih m1 hch' hfix1
              have hshow : processLevel h m (q :: qs) = processLevel h m1 qs := by
                show processLevel h (processParent h m q) qs = _
                rw [hm1]
              refine ⟨?_, ?_, ?_⟩
              · intro k hk
                rw [hshow, S1 k hk]
                exact hS1 k hk
              · intro k hk
                have hkq : k ≠ q := fun hh => hk (by simp [hh])
                have hkqs : k ∉ qs := fun hh => hk (List.mem_cons_of_mem q hh)
                rw [hshow, S2 k hkqs]
                exact lookupA_setKey_ne m q k v0 hkq
              · intro p hp cs hcs
                rcases List.mem_cons.mp hp with rfl | hpqs
                · obtain rfl : cs0 = cs := by
                    rw [hq] at hcs; simpa using hcs
                  rw [if_neg hcf, hshow]
                  by_cases hqqs : p ∈ qs
                  · rw [S3 p hqqs cs0 hq, hfmS p hqqs cs0 hq,
                      if_neg hcf]
                  · rw [S2 p hqqs]
                    exact lookupA_setKey_self m p v0
                · rw [hshow, S3 p hpqs cs hcs, hfmS p hpqs cs hcs]
                  by_cases hpq : p = q
                  · subst hpq
                    obtain rfl : cs0 = cs := by
                      rw [hq] at hcs; simpa using hcs
                    rw [if_neg hcf, if_neg hcf]
                  · rw [lookupA_setKey_ne m q p v0 hpq]

/-! ## The bottom-up invariant -/

theorem bottom_up_eq_runLevels (h : Hierarchy) (L : List (List Node)) (f : FMap) :
    bottom_up_reconcile h L f = runLevels h L f := by
  induction L with
  | nil => rfl
  | cons lvl rest ih =>
      show ((lvl :: rest).reverse).foldl (processLevel h) f = _
      rw [List.reverse_cons, List.foldl_append]
      show processLevel h (bottom_up_reconcile h rest f) lvl
          = processLevel h (runLevels h rest f) lvl
      rw [ih]

theorem filterMap_ne_nil_of_exists {α β : Type} {l : List α} {g : α → Option β}
    (hex : ∃ a ∈ l, (g a).isSome = true) : l.filterMap g ≠ [] := by
  obtain ⟨a, ha, hsome⟩ := hex
  obtain ⟨b, hb⟩ := Option.isSome_iff_exists.mp hsome
  exact List.ne_nil_of_mem (List.mem_filterMap.mpr ⟨a, ha, hb⟩)

/-- Main invariant of the levelled bottom-up pass: keys outside the level
list are untouched, the shared horizon is preserved, and every processed
parent whose children contribute at least one vector holds the elementwise
sum of the present children of the final map.  Holds for every hierarchy
whose level expansion terminates; duplicate occurrences across levels only
trigger no-op re-assignments. -/
theorem runLevels_main (h : Hierarchy) (H : Nat) :
    ∀ (L : List (List Node)) (fuel : Nat) (fr : List Node) (f : FMap),
      levelsFrom h fuel fr = some L →
      lookupLen H f →
      (∀ k, k ∉ L.flatten → lookupA (runLevels h L f) k = lookupA f k) ∧
      lookupLen H (runLevels h L f) ∧
      (∀ p ∈ L.flatten, ∀ cs, lookupA h p = some cs →
        cs.filterMap (fun c => lookupA (runLevels h L f) c) ≠ [] →
        lookupA (runLevels h L f) p =
          some (sumVecs (cs.filterMap (fun c => lookupA (runLevels h L f) c)))) := by
  intro L
  induction L with
  | nil =>
      intro fuel fr f _ hf
      refine ⟨fun k _ => rfl, hf, fun p hp => ?_⟩
      simp at hp
  | cons lvl rest ih =>
      intro fuel fr f hL hf
      obtain ⟨hlvl, n, hfuel, hrest⟩ := levelsFrom_cons_inv hL
      obtain ⟨U1, U2, U3⟩ := ih n (expand h fr) f hrest hf
      have hct : ∀ p ∈ lvl, ∀ cs, lookupA h p = some cs → ∀ c ∈ cs, c ∈ rest.flatten :=
        children_in_tail hL
      obtain ⟨S1, S2, S3⟩ :=
        processLevel_stable h rest.flatten lvl (runLevels h rest f) hct
          (fun p _ hpS cs hcs hne => U3 p hpS cs hcs hne)
      have hm' : runLevels h (lvl :: rest) f
          = processLevel h (runLevels h rest f) lvl := rfl
      -- children of any node of the flattened list keep their rest-values
      have hchild_eq : ∀ p ∈ (lvl :: rest).flatten, ∀ cs, lookupA h p = some cs →
          ∀ c ∈ cs, lookupA (runLevels h (lvl :: rest) f) c
            = lookupA (runLevels h rest f) c := by
        intro p hp cs hcs c hc
        have hcrest : c ∈ rest.flatten := by
          simp only [List.flatten_cons, List.mem_append] at hp
          rcases hp with hp | hp
          · exact hct p hp cs hcs c hc
          · exact children_sub_flatten hrest p hp cs hcs c hc
        rw [hm']
        exact S1 c hcrest
      refine ⟨?_, ?_, ?_⟩
      · -- untouched keys
        intro k hk
        simp only [List.flatten_cons, List.mem_append] at hk
        push_neg at hk
        rw [hm', S2 k hk.1, U1 k hk.2]
      · -- horizon preservation
        intro k v hkv
        rw [hm'] at hkv
        by_cases hkl : k ∈ lvl
        · cases hcs : lookupA h k with
          | none =>
              rw [processLevel_spec_none h lvl _ k hcs] at hkv
              exact U2 k v hkv
          | some cs =>
              rw [S3 k hkl cs hcs] at hkv
              by_cases hcf : (cs.filterMap (fun c => lookupA (runLevels h rest f) c)).isEmpty
              · rw [if_pos hcf] at hkv
                exact U2 k v hkv
              · rw [if_neg hcf] at hkv
                have hv : v = sumVecs (cs.filterMap (fun c => lookupA (runLevels h rest f) c)) :=
                  (Option.some.injEq _ _ ▸ hkv).symm
                have hne : cs.filterMap (fun c => lookupA (runLevels h rest f) c) ≠ [] := by
                  simpa [List.isEmpty_iff] using hcf
                have hlens : ∀ w ∈ cs.filterMap (fun c => lookupA (runLevels h rest f) c),
                    w.length = H := by
                  intro w hw
                  obtain ⟨c, _, hcw⟩ := List.mem_filterMap.mp hw
                  exact U2 c w hcw
                rw [hv]
                exact sumVecs_length _ H hne hlens
        · rw [S2 k hkl] at hkv
          exact U2 k v hkv
      · -- the parent-sum invariant
        intro p hp cs hcs hne
        have hfm : cs.filterMap (fun c => lookupA (runLevels h (lvl :: rest) f) c)
            = cs.filterMap (fun c => lookupA (runLevels h rest f) c) :=
          List.filterMap_congr (hchild_eq p hp cs hcs)
        rw [hfm] at hne ⊢
        simp only [List.flatten_cons, List.mem_append] at hp
        rcases hp with hp | hp
        · rw [hm', S3 p hp cs hcs,
            if_neg (by simpa [List.isEmpty_iff] using hne)]
        · by_cases hplvl : p ∈ lvl
          · rw [hm', S3 p hplvl cs hcs,
              if_neg (by simpa [List.isEmpty_iff] using hne)]
          · rw [hm', S2 p hplvl]
            exact U3 p hp cs hcs hne

/-- Replaying a level pass on a map that already satisfies the parent-sum
invariant changes nothing. -/
theorem processLevel_fixpoint (h : Hierarchy) (lvl : List Node) :
    ∀ m : FMap,
      (∀ p ∈ lvl, ∀ cs, lookupA h p = some cs →
        cs.filterMap (fun c => lookupA m c) ≠ [] →
        lookupA m p = some (sumVecs (cs.filterMap (fun c => lookupA m c)))) →
      processLevel h m lvl = m := by
  induction lvl with
  | nil => intro m _; rfl
  | cons p ps ih =>
      intro m hinv
      have hp : processParent h m p = m := by
        unfold processParent
        split
        · rfl
        · next cs heq =>
            by_cases hcf : (cs.filterMap (fun c => lookupA m c)).isEmpty
            · simp [hcf]
            · have hne : cs.filterMap (fun c => lookupA m c) ≠ [] := by
                simpa [List.isEmpty_iff] using hcf
              have hfix := hinv p (by simp) cs heq hne
              simp [hcf, setKey_eq_self m p _ hfix]
      show processLevel h (processParent h m p) ps = m
      rw [hp]
      exact ih m (fun q hq => hinv q (by simp [hq]))

theorem runLevels_fixpoint (h : Hierarchy) :
    ∀ (L : List (List Node)) (fuel : Nat) (fr : List Node) (m : FMap),
      levelsFrom h fuel fr = some L →
      (∀ p ∈ L.flatten, ∀ cs, lookupA h p = some cs →
        cs.filterMap (fun c => lookupA m c) ≠ [] →
        lookupA m p = some (sumVecs (cs.filterMap (fun c => lookupA m c)))) →
      runLevels h L m = m := by
  intro L
  induction L with
  | nil => intro fuel fr m _ _; rfl
  | cons lvl rest ih =>
      intro fuel fr m hL hinv
      obtain ⟨hlvl, n, hfuel, hrest⟩ := levelsFrom_cons_inv hL
      have hrestfix : runLevels h rest m = m := by
        refine ih n (expand h fr) m hrest ?_
        intro p hp cs hcs hne
        exact hinv p (by simp [List.flatten_cons, hp]) cs hcs hne
      show processLevel h (runLevels h rest m) lvl = m
      rw [hrestfix]
      exact processLevel_fixpoint h lvl m
        (fun p hp cs hcs hne => hinv p (by simp [List.flatten_cons, hp]) cs hcs hne)

theorem mem_keysOf_of_lookupA {α : Type} {h : List (Node × α)} {p : Node} {v : α}
    (hp : lookupA h p = some v) : p ∈ keysOf h :=
  List.mem_map.mpr ⟨(p, v), lookupA_mem hp, rfl⟩

/-- C1: over a strict-tree hierarchy (terminating, duplicate-free level
expansion that covers every parent key) and any forecast map of shared
horizon H, after bottom_up reconciliation every parent with at least one
child present in the working forecast set satisfies, at every horizon step
t, reconciled parent value at t equals the sum over its present children
of their values at t; and on the end-to-end scenario with hierarchy
Total -> [A, B] and leaf forecasts A = [10, 20], B = [5, 15], the result
is Total = [15, 35] with A and B unchanged. -/
theorem bottom_up_parent_sum (h : Hierarchy) (fuel : Nat) (L : List (List Node))
    (f : FMap) (H : Nat)
    (hL : levelsFrom h fuel (rootNodes h) = some L)
    (hcov : ∀ p ∈ keysOf h, p ∈ L.flatten)
    (hf : uniformLen H f) :
    (∀ p cs, lookupA h p = some cs →
      (∃ c ∈ cs, (lookupA (bottom_up_reconcile h L f) c).isSome = true) →
      ∃ v, lookupA (bottom_up_reconcile h L f) p = some v ∧ v.length = H ∧
        ∀ t, t < H →
          v.getD t 0 =
            ((cs.filterMap (fun c => lookupA (bottom_up_reconcile h L f) c)).map
              (fun w => w.getD t 0)).sum) ∧
    bottom_up_reconcile exHierarchy exLevels exForecasts
      = [("A", [10, 20]), ("B", [5, 15]), ("Total", [15, 35])] := by
  constructor
  · intro p cs hcs hex
    rw [bottom_up_eq_runLevels] at hex ⊢
    obtain ⟨U1, U2, U3⟩ :=
      runLevels_main h H L fuel (rootNodes h) f hL (uniformLen_lookupLen hf)
    have hp : p ∈ L.flatten := hcov p (mem_keysOf_of_lookupA hcs)
    have hne : cs.filterMap (fun c => lookupA (runLevels h L f) c) ≠ [] :=
      filterMap_ne_nil_of_exists hex
    have hlens : ∀ w ∈ cs.filterMap (fun c => lookupA (runLevels h L f) c), w.length = H := by
      intro w hw
      obtain ⟨c, _, hcw⟩ := List.mem_filterMap.mp hw
      exact U2 c w hcw
    refine ⟨sumVecs (cs.filterMap (fun c => lookupA (runLevels h L f) c)),
      U3 p hp cs hcs hne, sumVecs_length _ H hne hlens, ?_⟩
    intro t ht
    exact sumVecs_getD _ H t hne hlens ht
  · simp +decide [bottom_up_reconcile, processLevel, processParent, lookupA, setKey,
      sumVecs, addVec, exHierarchy, exLevels, exForecasts]
    norm_num

/-- Witness instantiating bottom_up_parent_sum on the end-to-end scenario:
the parent Total carries a vector of horizon 2 equal, stepwise, to the sum
of the vectors of its present children A and B. -/
theorem bottom_up_parent_sum_witness :
    ∃ v, lookupA (bottom_up_reconcile exHierarchy exLevels exForecasts) "Total" = some v ∧
      v.length = 2 ∧ ∀ t, t < 2 →
        v.getD t 0 =
          ((["A", "B"].filterMap
              (fun c => lookupA (bottom_up_reconcile exHierarchy exLevels exForecasts) c)).map
            (fun w => w.getD t 0)).sum :=
  (bottom_up_parent_sum exHierarchy 3 exLevels exForecasts 2 (by decide) (by decide)
    (by decide)).1 "Total" ["A", "B"] (by decide) (by decide)

/-- C8: over a strict-tree hierarchy, bottom_up reconciliation is
idempotent on every forecast map of shared horizon: applying bottom_up to
its own output returns that output unchanged, because every parent already
satisfies the sum invariant there and each rewrite is a no-op. -/
theorem bottom_up_idempotent (h : Hierarchy) (fuel : Nat) (L : List (List Node))
    (f : FMap) (H : Nat)
    (hL : levelsFrom h fuel (rootNodes h) = some L)
    (hf : uniformLen H f) :
    bottom_up_reconcile h L (bottom_up_reconcile h L f) = bottom_up_reconcile h L f := by
  simp only [bottom_up_eq_runLevels]
  obtain ⟨_, _, U3⟩ :=
    runLevels_main h H L fuel (rootNodes h) f hL (uniformLen_lookupLen hf)
  exact runLevels_fixpoint h L fuel (rootNodes h) (runLevels h L f) hL U3

/-- Witness instantiating bottom_up_idempotent on the end-to-end scenario. -/
theorem bottom_up_idempotent_witness :
    bottom_up_reconcile exHierarchy exLevels (bottom_up_reconcile exHierarchy exLevels exForecasts)
      = bottom_up_reconcile exHierarchy exLevels exForecasts :=
  bottom_up_idempotent exHierarchy 3 exLevels exForecasts 2 (by decide) (by decide)

/-- C5: the level construction has no cycle guard at all.  On the cyclic
hierarchy R -> [A], A -> [A] the while-loop frontier never becomes empty:
the loop fails to terminate for every iteration bound, and in particular
the frontier is still nonempty after hierarchy-size + 1 iterations.  No
CycleDetected failure is raised; the Python loop simply runs forever. -/
theorem build_levels_diverges_on_cycle :
    (∀ fuel : Nat, levelsFrom cyclicHierarchy fuel (rootNodes cyclicHierarchy) = none) ∧
    expandIter cyclicHierarchy (cyclicHierarchy.length + 1) (rootNodes cyclicHierarchy) ≠ [] := by
  constructor
  · intro fuel
    have hroot : rootNodes cyclicHierarchy = ["R"] := by decide
    rw [hroot]
    cases fuel with
    | zero => rfl
    | succ n => simp [levelsFrom, expand_cyclic_R, levelsFrom_cyclic_A]
  · decide

/-! ## Metrics lemmas -/

theorem applyMask_zip_filter : ∀ (a p : List ℚ), a.length = p.length →
    applyMask (boolMask a) a = ((a.zip p).filter (fun q => decide (q.1 ≠ 0))).map Prod.fst ∧
    applyMask (boolMask a) p = ((a.zip p).filter (fun q => decide (q.1 ≠ 0))).map Prod.snd
  | [], [], _ => ⟨rfl, rfl⟩
  | [], _ :: _, h => by simp at h
  | _ :: _, [], h => by simp at h
  | x :: xs, y :: ys, h => by
      have hlen : xs.length = ys.length := by simpa using h
      obtain ⟨ih1, ih2⟩ := applyMask_zip_filter xs ys hlen
      simp only [applyMask, boolMask, decide_not] at ih1 ih2 ⊢
      by_cases hx : x = 0
      · simp [hx, ih1, ih2]
      · simp [hx, ih1, ih2]

theorem zipWith_map_pair {γ : Type} (f : ℚ → ℚ → γ) :
    ∀ l : List (ℚ × ℚ),
      List.zipWith f (l.map Prod.fst) (l.map Prod.snd) = l.map (fun q => f q.1 q.2)
  | [] => rfl
  | q :: l => by simp [zipWith_map_pair f l]

/-- C4 counterexample: the empty pair violates the claimed precondition
len(actual) == len(predicted) >= 1, yet calculate_forecast_metrics
succeeds on it, returning nan and inf sentinels instead of failing with
a length error. -/
theorem metrics_empty_pair_succeeds :
    calculate_forecast_metrics [] [] = some
      { mae := .nan, rmseSq := .nan, mape := .inf, wape := .inf, bias := .nan, mase := .inf } :=
  rfl

/-- C4 amended: calculate_forecast_metrics is defined exactly on
equal-length input pairs, the empty pair included; unequal lengths fail
through the boolean-mask indexing, and no nonemptiness requirement
exists. -/
theorem metrics_defined_iff_equal_length (a p : List ℚ) :
    (calculate_forecast_metrics a p).isSome = true ↔ a.length = p.length := by
  unfold calculate_forecast_metrics
  by_cases h : a.length = p.length <;> simp [h]

/-- C7: for every equal-length pair, MAPE is averaged only over the entries
whose actual value is nonzero and is the inf sentinel when no such entry
exists; in particular compute([0,0,0],[1,2,3]) yields mape = inf and
wape = inf without failing. -/
theorem mape_nonzero_entries_only :
    (∀ a p : List ℚ, a.length = p.length →
      ∃ m, calculate_forecast_metrics a p = some m ∧
        ((a.zip p).filter (fun q => decide (q.1 ≠ 0)) = [] → m.mape = .inf) ∧
        ((a.zip p).filter (fun q => decide (q.1 ≠ 0)) ≠ [] →
          m.mape = .val (100 * ((((a.zip p).filter (fun q => decide (q.1 ≠ 0))).map
              (fun q => |(q.1 - q.2) / q.1|)).sum
            / (((a.zip p).filter (fun q => decide (q.1 ≠ 0))).length : ℚ))))) ∧
    calculate_forecast_metrics [0, 0, 0] [1, 2, 3] = some
      { mae := .val 2, rmseSq := .val (14 / 3), mape := .inf, wape := .inf,
        bias := .val 2, mase := .inf } := by
  constructor
  · intro a p hlen
    obtain ⟨h1, h2⟩ := applyMask_zip_filter a p hlen
    unfold calculate_forecast_metrics
    rw [if_pos hlen]
    refine ⟨_, rfl, ?_, ?_⟩
    · intro hnil
      simp only [h1, h2, hnil, List.map_nil, List.isEmpty_nil, if_pos]
    · intro hne
      simp only [h1, h2, zipWith_map_pair, List.length_map]
      cases hq : (a.zip p).filter (fun q => decide (q.1 ≠ 0)) with
      | nil => exact absurd hq hne
      | cons q qs => simp
  · norm_num [calculate_forecast_metrics, npMean, boolMask, applyMask]

/-- Witness instantiating the general part of mape_nonzero_entries_only on
the degenerate pair of the specification. -/
theorem mape_nonzero_entries_only_witness :
    ∃ m, calculate_forecast_metrics [0, 0, 0] [1, 2, 3] = some m ∧
      (([(0 : ℚ), 0, 0].zip [(1 : ℚ), 2, 3]).filter (fun q => decide (q.1 ≠ 0)) = [] →
        m.mape = .inf) ∧
      (([(0 : ℚ), 0, 0].zip [(1 : ℚ), 2, 3]).filter (fun q => decide (q.1 ≠ 0)) ≠ [] →
        m.mape = .val (100 * (((([(0 : ℚ), 0, 0].zip [(1 : ℚ), 2, 3]).filter
            (fun q => decide (q.1 ≠ 0))).map (fun q => |(q.1 - q.2) / q.1|)).sum
          / ((([(0 : ℚ), 0, 0].zip [(1 : ℚ), 2, 3]).filter
            (fun q => decide (q.1 ≠ 0))).length : ℚ)))) :=
  mape_nonzero_entries_only.1 [0, 0, 0] [1, 2, 3] rfl

/-! ## Backtest lemmas -/

theorem btIndices_one (tp : Nat) : btIndices tp 1 = List.range tp := by
  simp [btIndices, Nat.mod_one]

theorem btLoop_all_ok (series : List ℚ) (g : Vec → ℚ) (tp ws : Nat) :
    ∀ l : List Nat, btLoop series (fun w => .ok (g w)) tp ws l
      = .ok (l.map (fun i =>
          (series.getD (series.length - tp + i) 0, g (btWindow series tp ws i)))) := by
  intro l
  induction l with
  | nil => rfl
  | cons i is ih => simp [btLoop, ih]

theorem btLoop_prefix_ok (series : List ℚ) (f : Vec → Except String ℚ) (tp ws : Nat) :
    ∀ (l₁ l₂ : List Nat) (e : String),
      (∀ i ∈ l₁, ∃ v, f (btWindow series tp ws i) = .ok v) →
      btLoop series f tp ws l₂ = .error e →
      btLoop series f tp ws (l₁ ++ l₂) = .error e := by
  intro l₁
  induction l₁ with
  | nil => intro l₂ e _ h2; simpa using h2
  | cons i is ih =>
      intro l₂ e hok h2
      obtain ⟨v, hv⟩ := hok i (by simp)
      have hrec := ih l₂ e (fun j hj => hok j (by simp [hj])) h2
      simp [btLoop, hv, hrec]

theorem range_split (j tp : Nat) (hj : j < tp) :
    List.range tp = List.range j ++ j :: ((List.range (tp - j - 1)).map (fun k => j + (k + 1))) := by
  have h1 : tp = j + (tp - j) := by omega
  have h2 : tp - j = (tp - j - 1) + 1 := by omega
  calc List.range tp = List.range (j + (tp - j)) := by rw [← h1]
    _ = List.range j ++ (List.range (tp - j)).map (j + ·) := List.range_add j (tp - j)
    _ = List.range j ++ (List.range ((tp - j - 1) + 1)).map (j + ·) := by rw [← h2]
    _ = List.range j ++ (0 :: (List.range (tp - j - 1)).map Nat.succ).map (j + ·) := by
          rw [List.range_succ_eq_map]
    _ = List.range j ++ j :: ((List.range (tp - j - 1)).map (fun k => j + (k + 1))) := by
          simp [List.map_map, Function.comp_def, Nat.succ_eq_add_one]

/-- C2: with step size 1 and sufficient history, the backtest produces one
row per test period; the row of step i pairs the actual value at index
train_end = len - test_periods + i with a prediction obtained by applying
the forecast function to exactly the slice from max(0, train_end -
window_size) to train_end, every element of which lies strictly before
train_end (no lookahead); and on the concrete series [10..16] with
window_size 3 and test_periods 2 the two evaluated actuals are 15 and 16
with training windows [12,13,14] and [13,14,15]. -/
theorem backtest_no_lookahead :
    (∀ (series : List ℚ) (g : Vec → ℚ) (tp ws : Nat),
      ws + tp ≤ series.length →
      ∃ records, rolling_window_backtest series (fun w => .ok (g w)) tp ws 1 = .ok records ∧
        records.length = tp ∧
        ∀ i, i < tp →
          records[i]? = some (series.getD (series.length - tp + i) 0,
            g (btWindow series tp ws i)) ∧
          ∀ j, j < (btWindow series tp ws i).length →
            (btWindow series tp ws i).getD j 0
              = series.getD (series.length - tp + i - ws + j) 0 ∧
            series.length - tp + i - ws + j < series.length - tp + i) ∧
    rolling_window_backtest exSeries (fun w => .ok w.sum) 2 3 1 = .ok [(15, 39), (16, 42)] ∧
    btWindow exSeries 2 3 0 = [12, 13, 14] ∧
    btWindow exSeries 2 3 1 = [13, 14, 15] := by
  refine ⟨?_, ?_, by decide, by decide⟩
  · intro series g tp ws hlen
    unfold rolling_window_backtest
    rw [if_neg (by omega), btIndices_one, btLoop_all_ok]
    refine ⟨_, rfl, by simp, ?_⟩
    intro i hi
    constructor
    · simp [List.getElem?_range hi]
    · intro j hj
      have hwl : (btWindow series tp ws i).length
          = min (series.length - tp + i - (series.length - tp + i - ws))
            (series.length - (series.length - tp + i - ws)) := by
        simp [btWindow]
      rw [hwl] at hj
      constructor
      · rw [List.getD_eq_getElem?_getD, List.getD_eq_getElem?_getD]
        congr 1
        show (btWindow series tp ws i)[j]? = _
        simp only [btWindow]
        rw [List.getElem?_take_of_lt (by omega), List.getElem?_drop]
      · omega
  · norm_num [rolling_window_backtest, btIndices, btLoop, btWindow, exSeries, List.range_succ]

/-- Witness instantiating backtest_no_lookahead on the concrete series of
the specification with the summing forecast function. -/
theorem backtest_no_lookahead_witness :
    ∃ records, rolling_window_backtest exSeries (fun w => .ok w.sum) 2 3 1 = .ok records ∧
      records.length = 2 ∧
      ∀ i, i < 2 →
        records[i]? = some (exSeries.getD (exSeries.length - 2 + i) 0,
          (btWindow exSeries 2 3 i).sum) ∧
        ∀ j, j < (btWindow exSeries 2 3 i).length →
          (btWindow exSeries 2 3 i).getD j 0
            = exSeries.getD (exSeries.length - 2 + i - 3 + j) 0 ∧
          exSeries.length - 2 + i - 3 + j < exSeries.length - 2 + i :=
  backtest_no_lookahead.1 exSeries (fun w => w.sum) 2 3 (by decide)

/-- C6 counterexample: two backtests whose forecast functions fail at
different rolling steps (the first at step 0, the second only at step 1)
return the very same error value; the propagated error therefore carries
no step index and is not a dedicated ForecastStepFailed value. -/
theorem backtest_error_carries_no_index :
    rolling_window_backtest exSeries (fun _ => .error "boom") 2 3 1 = .error "boom" ∧
    rolling_window_backtest exSeries failSecond 2 3 1 = .error "boom" := by
  constructor
  · norm_num [rolling_window_backtest, btIndices, btLoop, exSeries, List.range_succ]
  · norm_num [rolling_window_backtest, btIndices, btLoop, btWindow, exSeries,
      failSecond, List.range_succ]

/-- C6 amended: if the forecast function fails at some rolling step (after
succeeding on every earlier step), the whole backtest fails with exactly
the propagated error of that call, and no partial results are returned. -/
theorem backtest_error_propagates (series : List ℚ) (f : Vec → Except String ℚ)
    (tp ws j : Nat) (e : String)
    (hlen : ws + tp ≤ series.length) (hj : j < tp)
    (hok : ∀ i, i < j → ∃ v, f (btWindow series tp ws i) = .ok v)
    (herr : f (btWindow series tp ws j) = .error e) :
    rolling_window_backtest series f tp ws 1 = .error e := by
  unfold rolling_window_backtest
  rw [if_neg (by omega), btIndices_one, range_split j tp hj]
  apply btLoop_prefix_ok
  · intro i hi
    exact hok i (List.mem_range.mp hi)
  · simp [btLoop, herr]

/-- Witness for backtest_error_propagates: a concrete run whose forecast
function fails exactly at step 1 aborts with that error. -/
theorem backtest_error_propagates_witness :
    rolling_window_backtest exSeries failSecond 2 3 1 = .error "boom" :=
  backtest_error_propagates exSeries failSecond 2 3 1 "boom" (by decide) (by decide)
    (fun i hi => by
      have hi0 : i = 0 := by omega
      subst hi0
      exact ⟨0, rfl⟩)
    rfl

/-! ## Mint lemmas -/

theorem mintNormWeights_eq (errors : List (Node × Vec)) :
    mintNormWeights errors
      = errors.map (fun ne => (ne.1, rawWeight ne.2 / mintTotal errors)) := by
  unfold mintNormWeights mintWeights
  rw [List.map_map]
  rfl

theorem mintNormWeights_lookup (errors : List (Node × Vec)) (k : Node) :
    lookupA (mintNormWeights errors) k
      = (lookupA errors k).map (fun e => rawWeight e / mintTotal errors) := by
  rw [mintNormWeights_eq]
  exact lookupA_keyed_map (fun e => rawWeight e / mintTotal errors) errors k

theorem mint_map_eq (forecasts : FMap) (errors : List (Node × Vec)) :
    mint_reconcile forecasts errors
      = forecasts.map (fun nv => (nv.1,
          match lookupA (mintNormWeights errors) nv.1 with
          | some w => scaleVec nv.2 w
          | none => nv.2)) := by
  unfold mint_reconcile
  apply List.map_congr_left
  intro nv _
  cases lookupA (mintNormWeights errors) nv.1 <;> rfl

theorem mint_lookup (forecasts : FMap) (errors : List (Node × Vec)) (k : Node) :
    lookupA (mint_reconcile forecasts errors) k
      = (lookupA forecasts k).map (fun v =>
          match lookupA (mintNormWeights errors) k with
          | some w => scaleVec v w
          | none => v) := by
  rw [mint_map_eq]
  exact lookupA_keyed_map2
    (fun n v =>
      match lookupA (mintNormWeights errors) n with
      | some w => scaleVec v w
      | none => v)
    forecasts k

theorem npVar_nonneg (e : Vec) : 0 ≤ npVar e := by
  unfold npVar
  apply div_nonneg
  · apply List.sum_nonneg
    intro x hx
    obtain ⟨y, _, rfl⟩ := List.mem_map.mp hx
    positivity
  · positivity

theorem rawWeight_pos (e : Vec) : 0 < rawWeight e := by
  unfold rawWeight
  split
  · have hv := npVar_nonneg e
    have heps : (0 : ℚ) < mintEps := by norm_num [mintEps]
    apply div_pos one_pos
    linarith
  · norm_num

theorem mintTotal_pos (errors : List (Node × Vec)) (hne : errors ≠ []) :
    0 < mintTotal errors := by
  unfold mintTotal mintWeights
  rw [List.map_map]
  apply List.sum_pos
  · intro x hx
    obtain ⟨ne, _, rfl⟩ := List.mem_map.mp hx
    exact rawWeight_pos _
  · simp [hne]

theorem sum_div_list (l : List ℚ) (c : ℚ) : (l.map (· / c)).sum = l.sum / c := by
  simp [div_eq_mul_inv, List.sum_map_mul_right]

/-- C9: when every node of the error map carries a nonempty error series,
mint reconciliation gives each node the weight 1 / (variance + 1e-8), the
normalised weights sum to 1 across all nodes of the error map, and every
forecast node with an error entry has its vector scaled elementwise by its
normalised weight. -/
theorem mint_weight_normalization (forecasts : FMap) (errors : List (Node × Vec))
    (hne : errors ≠ [])
    (hseries : ∀ ne ∈ errors, ne.2 ≠ []) :
    ((mintNormWeights errors).map Prod.snd).sum = 1 ∧
    (∀ n v e, lookupA forecasts n = some v → lookupA errors n = some e →
      lookupA (mint_reconcile forecasts errors) n
        = some (scaleVec v ((1 / (npVar e + mintEps)) / mintTotal errors))) := by
  constructor
  · have h1 : (mintNormWeights errors).map Prod.snd
        = (errors.map (fun ne => rawWeight ne.2)).map (· / mintTotal errors) := by
      rw [mintNormWeights_eq, List.map_map, List.map_map]
      rfl
    have h2 : (errors.map (fun ne => rawWeight ne.2)).sum = mintTotal errors := by
      unfold mintTotal mintWeights
      rw [List.map_map]
      rfl
    rw [h1, sum_div_list, h2]
    exact div_self (ne_of_gt (mintTotal_pos errors hne))
  · intro n v e hfv hev
    rw [mint_lookup, hfv, mintNormWeights_lookup, hev]
    have hre : rawWeight e = 1 / (npVar e + mintEps) := by
      unfold rawWeight
      rw [if_pos]
      exact List.length_pos.mpr (hseries (n, e) (lookupA_mem hev))
    show some (scaleVec v (rawWeight e / mintTotal errors)) = _
    rw [hre]

/-- Witness instantiating mint_weight_normalization on a concrete error
map with two nodes and a one-node forecast map. -/
theorem mint_weight_normalization_witness :
    ((mintNormWeights exErrors).map Prod.snd).sum = 1 ∧
    lookupA (mint_reconcile [("A", [10])] exErrors) "A"
      = some (scaleVec [10] ((1 / (npVar [1, 2] + mintEps)) / mintTotal exErrors)) :=
  ⟨(mint_weight_normalization [("A", [10])] exErrors (by decide) (by decide)).1,
   (mint_weight_normalization [("A", [10])] exErrors (by decide) (by decide)).2
     "A" [10] [1, 2] (by decide) (by decide)⟩

/-! ## Top-down key provenance -/

theorem assignChildren_keys (pf pa : Vec) :
    ∀ (cs : List Node) (i : Nat) (m m' : FMap),
      assignChildren pf pa cs i m = some m' →
      ∀ k, (lookupA m' k).isSome = true →
        (lookupA m k).isSome = true ∨ k ∈ cs := by
  intro cs
  induction cs with
  | nil =>
      intro i m m' hm k hk
      obtain rfl : m = m' := by simpa [assignChildren] using hm
      exact Or.inl hk
  | cons c cs ih =>
      intro i m m' hm k hk
      cases hpa : pa[i]? with
      | none => simp [assignChildren, hpa] at hm
      | some w =>
          simp only [assignChildren, hpa] at hm
          rcases ih (i + 1) (setKey m c (scaleVec pf w)) m' hm k hk with hsome | hmem
          · rcases lookupA_isSome_setKey m c k _ hsome with hkc | hold
            · right; simp [hkc]
            · left; exact hold
          · right; simp [hmem]

theorem topDownParent_keys (h : Hierarchy) (forecasts props : FMap) (method : String)
    (m m' : FMap) (parent : Node)
    (hm : topDownParent h forecasts props method m parent = some m') :
    ∀ k, (lookupA m' k).isSome = true →
      (lookupA m k).isSome = true ∨
      ∃ p cs, lookupA h p = some cs ∧ (lookupA forecasts p).isSome = true ∧ k ∈ cs := by
  intro k hk
  unfold topDownParent at hm
  cases hpf : lookupA forecasts parent with
  | none =>
      obtain rfl : m = m' := by
        cases hh : lookupA h parent <;> simpa [hpf, hh] using hm
      exact Or.inl hk
  | some pf =>
      cases hh : lookupA h parent with
      | none =>
          obtain rfl : m = m' := by simpa [hpf, hh] using hm
          exact Or.inl hk
      | some children =>
          rw [hpf, hh] at hm
          cases hcp : childProps props method children with
          | none => simp [hcp] at hm
          | some pa0 =>
              simp only [hcp] at hm
              rcases assignChildren_keys pf _ children 0 m m' hm k hk with hsome | hmem
              · exact Or.inl hsome
              · exact Or.inr ⟨parent, children, hh, by simp [hpf], hmem⟩

theorem topDownLevel_keys (h : Hierarchy) (forecasts props : FMap) (method : String) :
    ∀ (lvl : List Node) (m m' : FMap),
      List.foldlM (topDownParent h forecasts props method) m lvl = some m' →
      ∀ k, (lookupA m' k).isSome = true →
        (lookupA m k).isSome = true ∨
        ∃ p cs, lookupA h p = some cs ∧ (lookupA forecasts p).isSome = true ∧ k ∈ cs := by
  intro lvl
  induction lvl with
  | nil =>
      intro m m' hm k hk
      obtain rfl : m = m' := by simpa using hm
      exact Or.inl hk
  | cons q qs ih =>
      intro m m' hm k hk
      rw [List.foldlM_cons] at hm
      cases hq : topDownParent h forecasts props method m q with
      | none => rw [hq] at hm; simp at hm
      | some m2 =>
          rw [hq] at hm
          simp only [Option.bind_eq_bind, Option.some_bind] at hm
          rcases ih m2 m' hm k hk with hsome | hex
          · exact topDownParent_keys h forecasts props method m m2 q hq k hsome
          · exact Or.inr hex

theorem topDown_keys_aux (h : Hierarchy) (forecasts props : FMap) (method : String) :
    ∀ (L : List (List Node)) (m m' : FMap),
      List.foldlM (fun m lvl => lvl.foldlM (topDownParent h forecasts props method) m) m L
        = some m' →
      ∀ k, (lookupA m' k).isSome = true →
        (lookupA m k).isSome = true ∨
        ∃ p cs, lookupA h p = some cs ∧ (lookupA forecasts p).isSome = true ∧ k ∈ cs := by
  intro L
  induction L with
  | nil =>
      intro m m' hm k hk
      obtain rfl : m = m' := by simpa using hm
      exact Or.inl hk
  | cons lvl rest ih =>
      intro m m' hm k hk
      rw [List.foldlM_cons] at hm
      cases hl : List.foldlM (topDownParent h forecasts props method) m lvl with
      | none => rw [hl] at hm; simp at hm
      | some m2 =>
          rw [hl] at hm
          simp only [Option.bind_eq_bind, Option.some_bind] at hm
          rcases ih m2 m' hm k hk with hsome | hex
          · exact topDownLevel_keys h forecasts props method lvl m m2 hl k hsome
          · exact Or.inr hex

/-- C10: every key of a successful top_down_reconcile result is a child of
some parent node that both had an input forecast and has children in the
hierarchy; consequently any node that is nobody's child, every root node in
particular (including the disaggregated parent itself), is absent from the
returned mapping rather than passed through. -/
theorem top_down_result_keys (h : Hierarchy) (levels : List (List Node))
    (forecasts props : FMap) (method : String) (r : FMap)
    (hr : top_down_reconcile h levels forecasts props method = some r) :
    (∀ k, (lookupA r k).isSome = true →
      ∃ p cs, lookupA h p = some cs ∧ (lookupA forecasts p).isSome = true ∧ k ∈ cs) ∧
    (∀ k, (∀ e ∈ h, k ∉ e.2) → lookupA r k = none) := by
  unfold top_down_reconcile at hr
  have hmain := topDown_keys_aux h forecasts props method levels [] r hr
  constructor
  · intro k hk
    rcases hmain k hk with hsome | hex
    · simp [lookupA] at hsome
    · exact hex
  · intro k hnotchild
    cases hlook : lookupA r k with
    | none => rfl
    | some v =>
        have hk : (lookupA r k).isSome = true := by simp [hlook]
        rcases hmain k hk with hsome | ⟨p, cs, hcs, _, hmem⟩
        · simp [lookupA] at hsome
        · exact absurd hmem (hnotchild (p, cs) (lookupA_mem hcs))

/-- Witness: on the scenario hierarchy with parent forecast Total = [100],
the top_down result contains only the children A and B, and the
disaggregated root Total is absent from it. -/
theorem top_down_result_keys_witness :
    ∃ r, top_down_reconcile exHierarchy exLevels exParentF exProps2 "average" = some r ∧
      lookupA r "Total" = none := by
  have hrun : top_down_reconcile exHierarchy exLevels exParentF exProps2 "average"
      = some [("A", [50]), ("B", [50])] := by
    simp +decide [top_down_reconcile, topDownParent, childProps, npMeanRows, mapOption,
      assignChildren, sumVecs, scaleVec, addVec, setKey, lookupA, List.foldlM_cons,
      List.foldlM_nil, exHierarchy, exLevels, exParentF, exProps2]
    norm_num
  exact ⟨_, hrun,
    (top_down_result_keys exHierarchy exLevels exParentF exProps2 "average" _ hrun).2
      "Total" (by decide)⟩

/-- C3: the average branch of top_down_reconcile averages the stacked
child proportion series across children (axis 0) and then indexes the
resulting time-indexed vector by child position.  On parent Total = [100]
with child histories A = [1,1,1] and B = [3,1,1], the child shares used
are 1/2 and 1/4: they sum to 3/4, not 1, and the disaggregated children
A = [50] and B = [25] sum to 75, not the parent value 100. -/
theorem top_down_average_breaks_sum :
    top_down_reconcile exHierarchy exLevels exParentF exProps3 "average"
      = some [("A", [50]), ("B", [25])] ∧
    (let pa0 := npMeanRows [[1, 1, 1], [3, 1, 1]];
     let pa := pa0.map (· / pa0.sum);
     (pa.take 2).sum ≠ 1) ∧
    ((50 : ℚ) + 25 ≠ 100) := by
  refine ⟨?_, by norm_num [npMeanRows, sumVecs, addVec], by norm_num⟩
  simp +decide [top_down_reconcile, topDownParent, childProps, npMeanRows, mapOption,
    assignChildren, sumVecs, scaleVec, addVec, setKey, lookupA, List.foldlM_cons,
    List.foldlM_nil, exHierarchy, exLevels, exParentF, exProps3]
  norm_num

end Pharma
